import Mathlib

set_option maxHeartbeats 1000000

/-!
Shallow embedding of the inbox-triage pipeline:
the clustering engine (src/inbox_triage/email_clusterer.py),
the mailbox gateway helpers (src/inbox_triage/gmail_client.py), and
the archive endpoint of the web app (src/inbox_triage/web_app.py).
Definitions are direct transcriptions of the Python source; the theorems
below settle the specification claims against them.
-/

/-- Canonical message record, from the EmailMessage dataclass in
gmail_client.py (uid, subject, sender, date, body_preview, has_attachments).
The date is abstracted to an integer timestamp. -/
structure EmailMessage where
  uid : String
  subject : String
  sender : String
  date : Int
  body_preview : String
  has_attachments : Bool
deriving DecidableEq

/-- Cluster record, from the EmailCluster dataclass in email_clusterer.py. -/
structure EmailCluster where
  cluster_id : Nat
  name : String
  description : String
  emails : List EmailMessage
  keywords : List String
deriving DecidableEq

/-- Characters matched by the regex class \s of Python (ASCII range),
used in the character class of the domain regex. -/
def pyIsSpace (c : Char) : Bool :=
  c = ' ' ∨ c = '\t' ∨ c = '\n' ∨ c = '\r' ∨ c = '\x0b' ∨ c = '\x0c'

/-- Maximal run of characters matching the class of the regex fragment
[^>\s]+ : everything up to (excluding) the first character that is a
closing angle bracket or whitespace. -/
def domainRun : List Char → List Char
  | [] => []
  | c :: rest => if c = '>' ∨ pyIsSpace c then [] else c :: domainRun rest

/-- Scan for the leftmost match of the regex search in _extract_domain:
at each at-sign, the following [^>\s]+ run must be nonempty for a match;
otherwise the scan continues (the regex engine advances its start
position past a failed attempt). -/
def extractDomainAux : List Char → String
  | [] => ""
  | c :: rest =>
    if c = '@' then
      let r := domainRun rest
      if r = [] then extractDomainAux rest else String.mk r
    else extractDomainAux rest

/-- EmailClusterer._extract_domain (email_clusterer.py lines 122-125):
first match of the pattern at-sign followed by [^>\s]+ in the sender,
returning the captured group, or the empty string when there is no match. -/
def extractDomain (sender : String) : String :=
  extractDomainAux sender.data

/-- ASCII model of Python str.title(): each alphabetic character that
follows a non-alphabetic one is uppercased, alphabetic characters that
follow alphabetic ones are lowercased. The boolean argument records
whether the previous character was alphabetic. -/
def titleAux : Bool → List Char → List Char
  | _, [] => []
  | prevAlpha, c :: rest =>
    (if c.isAlpha then (if prevAlpha then c.toLower else c.toUpper) else c)
      :: titleAux c.isAlpha rest

/-- ASCII model of Python str.title(). -/
def pyTitle (s : String) : String :=
  String.mk (titleAux false s.data)

/-- The domain cleanup in _rule_based_clustering (line 162):
domain.replace(".com", "").replace("www.", "").title(). -/
def cleanDomain (domain : String) : String :=
  pyTitle ((domain.replace ".com" "").replace "www." "")

/-- EmailClusterer._create_single_cluster (email_clusterer.py lines 127-135). -/
def create_single_cluster (emails : List EmailMessage) : EmailCluster :=
  { cluster_id := 0
    name := "All Messages (" ++ toString emails.length ++ ")"
    description := "All " ++ toString emails.length ++ " recent emails"
    emails := emails
    keywords := [] }

/-- The cluster built for a retained domain group in
_rule_based_clustering (email_clusterer.py lines 162-169). -/
def mkDomainCluster (cid : Nat) (domain : String)
    (domain_emails : List EmailMessage) : EmailCluster :=
  { cluster_id := cid
    name := cleanDomain domain ++ " (" ++ toString domain_emails.length ++ ")"
    description := "Emails from " ++ domain
    emails := domain_emails
    keywords := [] }

/-- One step of the grouping loop (email_clusterer.py lines 151-155):
append the email to the entry of its domain in the insertion-ordered
dictionary, creating a fresh entry at the end when the domain is new. -/
def insertGroup (gs : List (String × List EmailMessage)) (d : String)
    (e : EmailMessage) : List (String × List EmailMessage) :=
  match gs with
  | [] => [(d, [e])]
  | (k, es) :: rest =>
    if k = d then (k, es ++ [e]) :: rest else (k, es) :: insertGroup rest d e

/-- The domain_groups dictionary of _rule_based_clustering
(email_clusterer.py lines 149-155), modelled as an insertion-ordered
association list, exactly as iteration order of a Python dict. -/
def domainGroups (emails : List EmailMessage) : List (String × List EmailMessage) :=
  emails.foldl (fun gs e => insertGroup gs (extractDomain e.sender) e) []

/-- The cluster-building loop of _rule_based_clustering
(email_clusterer.py lines 157-170): iterate the groups in order, retain
those of size at least min_cluster_size, and assign ids from a counter
that increments only on retained groups. -/
def buildClusters (minSize : Nat) : Nat → List (String × List EmailMessage) → List EmailCluster
  | _, [] => []
  | cid, (d, es) :: rest =>
    if minSize ≤ es.length then
      mkDomainCluster cid d es :: buildClusters minSize (cid + 1) rest
    else
      buildClusters minSize cid rest

/-- EmailClusterer._rule_based_clustering (email_clusterer.py lines 147-172):
group by sender domain, keep groups of size at least min_cluster_size,
and fall back to a single all-message cluster when nothing is kept. -/
def rule_based_clustering (minSize : Nat) (emails : List EmailMessage) : List EmailCluster :=
  let clusters := buildClusters minSize 0 (domainGroups emails)
  if clusters = [] then [create_single_cluster emails] else clusters

/-- EmailClusterer.cluster_emails (email_clusterer.py lines 27-34).
minSize is the min_cluster_size attribute (default 3); numClusters is the
num_clusters parameter, which the body never reads. -/
def cluster_emails (minSize : Nat) (emails : List EmailMessage)
    (numClusters : Nat) : List EmailCluster :=
  if emails.length < minSize then [create_single_cluster emails]
  else rule_based_clustering minSize emails

/-- Number of input messages whose sender domain equals the sender domain
of e (the multiplicity of the domain group of e). -/
def domainCount (emails : List EmailMessage) (e : EmailMessage) : Nat :=
  emails.countP (fun x => extractDomain x.sender = extractDomain e.sender)

/-- Process-wide state of the web app (web_app.py lines 16-18):
the active cluster set and the current gateway client (present or not). -/
structure AppState where
  current_clusters : List EmailCluster
  current_gmail_client : Option Unit
deriving DecidableEq

/-- HTTP-level outcome of the archive_cluster endpoint. -/
inductive ArchiveResponse where
  | notConnected
  | notFound
  | serverError
  | success (count : Nat) (name : String)
deriving DecidableEq

/-- Result of one archive_cluster call: the response, the state after
the call, and the argument lists of the calls made to the gateway
archive operation during the call. -/
structure ArchiveOutcome where
  response : ArchiveResponse
  state : AppState
  gateway_calls : List (List String)
deriving DecidableEq

/-- The archive_cluster endpoint (web_app.py lines 113-148): reject when
no client is connected; look up the first cluster with the requested id
(the for-loop with break); 404 when absent; otherwise pass the member
uids to the gateway and, when the gateway call succeeds, drop every
cluster with that id from the active set. gatewayOk models whether
GmailClient.archive_emails raises. -/
def archiveCluster (gatewayOk : Bool) (st : AppState) (clusterId : Nat) : ArchiveOutcome :=
  match st.current_gmail_client with
  | none => ⟨ArchiveResponse.notConnected, st, []⟩
  | some _ =>
    match st.current_clusters.find? (fun c => c.cluster_id = clusterId) with
    | none => ⟨ArchiveResponse.notFound, st, []⟩
    | some target =>
      let uids := target.emails.map (fun e => e.uid)
      if gatewayOk then
        ⟨ArchiveResponse.success uids.length target.name,
         { st with current_clusters :=
            st.current_clusters.filter (fun c => ¬ c.cluster_id = clusterId) },
         [uids]⟩
      else
        ⟨ArchiveResponse.serverError, st, [uids]⟩

/-- Python list slicing l[-count:] for a nonnegative count: the empty
slice bound -0 degenerates to 0, selecting the whole list. -/
def sliceLastPy {α : Type} (l : List α) (count : Nat) : List α :=
  if count = 0 then l else l.drop (l.length - count)

/-- The identifier-selection part of GmailClient.fetch_recent_emails
(gmail_client.py lines 65-75): take message_list[-count:] when the
mailbox holds more than count messages, otherwise the whole list, then
iterate it reversed (most recent first). -/
def listRecentRefs {α : Type} (mailbox : List α) (count : Nat) : List α :=
  (if count < mailbox.length then sliceLastPy mailbox count else mailbox).reverse

/-- One fragment of the value returned by email.header.decode_header:
either an already-decoded text fragment or a byte fragment together with
the charset named by its encoded word (none for raw unencoded bytes). -/
inductive HeaderPart where
  | text (s : String)
  | bytes (data : List Nat) (charset : Option String)

/-- Python bytes.decode(enc, errors="ignore"): the codec registry is a
partial map from encoding names to (total, lossy) decoding functions;
a name outside the registry raises LookupError regardless of the errors
argument, which only governs undecodable byte sequences of a known codec. -/
def pyBytesDecode (codecs : String → Option (List Nat → String))
    (enc : String) (data : List Nat) : Except String String :=
  match codecs enc with
  | none => Except.error ("unknown encoding: " ++ enc)
  | some dec => Except.ok (dec data)

/-- The accumulation loop of GmailClient._decode_header
(gmail_client.py lines 136-145) over the parts returned by
email.header.decode_header: byte parts are decoded with their charset
(utf-8 when absent) and errors="ignore", text parts are appended as is. -/
def decode_header_impl (codecs : String → Option (List Nat → String)) :
    List HeaderPart → String → Except String String
  | [], acc => Except.ok acc
  | HeaderPart.text s :: rest, acc => decode_header_impl codecs rest (acc ++ s)
  | HeaderPart.bytes ds enc :: rest, acc =>
    match pyBytesDecode codecs (enc.getD "utf-8") ds with
    | Except.error e => Except.error e
    | Except.ok s => decode_header_impl codecs rest (acc ++ s)

/-- GmailClient._decode_header (gmail_client.py lines 131-145), acting on
the part list produced by email.header.decode_header for a nonempty
header value. -/
def decode_header (codecs : String → Option (List Nat → String))
    (parts : List HeaderPart) : Except String String :=
  decode_header_impl codecs parts ""

/-! ### List helper lemmas -/

/-- A map that fixes every member of a list is the identity on it. -/
theorem map_eq_self_of_mem {α : Type} (l : List α) (f : α → α)
    (h : ∀ a ∈ l, f a = a) : l.map f = l := by
  induction l with
  | nil => rfl
  | cons a t ih =>
    rw [List.map_cons, h a (by simp), ih (fun x hx => h x (by simp [hx]))]

/-- Two maps that agree on every member of a list give the same result. -/
theorem map_ext_mem {α β : Type} (l : List α) (f g : α → β)
    (h : ∀ a ∈ l, f a = g a) : l.map f = l.map g := by
  induction l with
  | nil => rfl
  | cons a t ih =>
    rw [List.map_cons, List.map_cons, h a (by simp),
      ih (fun x hx => h x (by simp [hx]))]

/-- Unfolding of enumFrom on a cons cell. -/
theorem enumFrom_cons_eq {α : Type} (n : Nat) (a : α) (l : List α) :
    List.enumFrom n (a :: l) = (n, a) :: List.enumFrom (n + 1) l := rfl

/-- The second component of an enumFrom member is a member of the list. -/
theorem snd_mem_of_mem_enumFrom {α : Type} {q : Nat × α} {n : Nat} {l : List α}
    (h : q ∈ List.enumFrom n l) : q.2 ∈ l := by
  have h2 : q.2 ∈ (List.enumFrom n l).map Prod.snd := List.mem_map_of_mem _ h
  rwa [List.enumFrom_map_snd] at h2

/-- Every member of a list appears, with some index, in its enumFrom. -/
theorem exists_mem_enumFrom {α : Type} :
    ∀ (l : List α) (a : α), a ∈ l → ∀ n : Nat, ∃ i, (i, a) ∈ List.enumFrom n l := by
  intro l
  induction l with
  | nil => intro a ha; cases ha
  | cons b t ih =>
    intro a ha n
    rcases List.mem_cons.mp ha with h | h
    · subst h
      exact ⟨n, by rw [enumFrom_cons_eq]; exact List.mem_cons_self _ _⟩
    · rcases ih a h (n + 1) with ⟨i, hi⟩
      exact ⟨i, by rw [enumFrom_cons_eq]; exact List.mem_cons_of_mem _ hi⟩

/-- Pairwise relations transfer from a list to its enumFrom. -/
theorem pairwise_enumFrom {α : Type} {R : α → α → Prop} :
    ∀ (n : Nat) (l : List α), l.Pairwise R →
      (List.enumFrom n l).Pairwise (fun p q => R p.2 q.2) := by
  intro n l
  induction l generalizing n with
  | nil => intro _; simp
  | cons a t ih =>
    intro h
    rcases List.pairwise_cons.mp h with ⟨h1, h2⟩
    rw [enumFrom_cons_eq]
    refine List.pairwise_cons.mpr ⟨?_, ih (n + 1) h2⟩
    intro q hq
    exact h1 q.2 (snd_mem_of_mem_enumFrom hq)

/-- Count of an element in a filtered list, as a conditional. -/
theorem count_filter_ite {α : Type} [DecidableEq α] (p : α → Bool) (l : List α)
    (a : α) : (l.filter p).count a = if p a then l.count a else 0 := by
  induction l with
  | nil => simp
  | cons b t ih =>
    by_cases hb : p b
    · rw [List.filter_cons_of_pos hb]
      by_cases hba : b = a
      · subst hba
        rw [List.count_cons_self, List.count_cons_self, ih, if_pos hb, if_pos hb]
      · rw [List.count_cons_of_ne (fun h => hba h.symm),
          List.count_cons_of_ne (fun h => hba h.symm), ih]
    · rw [List.filter_cons_of_neg hb, ih]
      by_cases hba : b = a
      · subst hba
        rw [if_neg hb, if_neg hb]
      · rw [List.count_cons_of_ne (fun h => hba h.symm)]

/-- Sum of a conditional singleton over a duplicate-free list of keys. -/
theorem sum_map_ite_eq (x : String) (c : Nat) : ∀ (K : List String), K.Nodup →
    (K.map (fun d => if x = d then c else 0)).sum = if x ∈ K then c else 0 := by
  intro K
  induction K with
  | nil => simp
  | cons k t ih =>
    intro hnd
    rcases List.nodup_cons.mp hnd with ⟨hk, hnd2⟩
    rw [List.map_cons, List.sum_cons, ih hnd2]
    by_cases hxk : x = k
    · subst hxk
      rw [if_pos rfl, if_neg hk, if_pos (List.mem_cons_self _ _), Nat.add_zero]
    · rw [if_neg hxk, Nat.zero_add]
      by_cases hxt : x ∈ t
      · rw [if_pos hxt, if_pos (List.mem_cons_of_mem _ hxt)]
      · have hnm : x ∉ k :: t := by
          intro hm
          rcases List.mem_cons.mp hm with h | h
          · exact hxk h
          · exact hxt h
        rw [if_neg hxt, if_neg hnm]

/-- Count distributes over flattening as a sum. -/
theorem count_flatten_eq {α : Type} [DecidableEq α] (a : α) :
    ∀ (L : List (List α)),
      L.flatten.count a = (L.map (fun l => l.count a)).sum := by
  intro L
  induction L with
  | nil => simp
  | cons l t ih => simp [List.count_append, ih]

/-- Members of a duplicate-free image come from a unique preimage. -/
theorem map_nodup_inj {α β : Type} {f : α → β} :
    ∀ {l : List α}, (l.map f).Nodup → ∀ x ∈ l, ∀ y ∈ l, f x = f y → x = y := by
  intro l
  induction l with
  | nil => intro _ x hx; cases hx
  | cons a t ih =>
    intro hnd x hx y hy hxy
    rw [List.map_cons] at hnd
    rcases List.nodup_cons.mp hnd with ⟨ha, hnd2⟩
    rcases List.mem_cons.mp hx with hx1 | hx1 <;> rcases List.mem_cons.mp hy with hy1 | hy1
    · rw [hx1, hy1]
    · exfalso
      apply ha
      rw [hx1] at hxy
      rw [hxy]
      exact List.mem_map_of_mem _ hy1
    · exfalso
      apply ha
      rw [hy1] at hxy
      rw [← hxy]
      exact List.mem_map_of_mem _ hx1
    · exact ih hnd2 x hx1 y hy1 hxy

/-! ### Structure of the domain grouping -/

/-- Inserting under a fresh key appends a new singleton entry. -/
theorem insertGroup_of_not_mem (gs : List (String × List EmailMessage))
    (d : String) (e : EmailMessage) (h : d ∉ gs.map Prod.fst) :
    insertGroup gs d e = gs ++ [(d, [e])] := by
  induction gs with
  | nil => rfl
  | cons p rest ih =>
    obtain ⟨k, es⟩ := p
    have hk : ¬ k = d := by
      intro hkd
      exact h (by rw [List.map_cons, hkd]; exact List.mem_cons_self _ _)
    have hrest : d ∉ rest.map Prod.fst := by
      intro hm
      exact h (by rw [List.map_cons]; exact List.mem_cons_of_mem _ hm)
    show (if k = d then (k, es ++ [e]) :: rest else (k, es) :: insertGroup rest d e)
      = (k, es) :: rest ++ [(d, [e])]
    rw [if_neg hk, ih hrest]
    rfl

/-- Inserting under an existing key (keys duplicate-free) updates that
entry in place. -/
theorem insertGroup_of_mem (gs : List (String × List EmailMessage))
    (d : String) (e : EmailMessage) (hnd : (gs.map Prod.fst).Nodup)
    (h : d ∈ gs.map Prod.fst) :
    insertGroup gs d e =
      gs.map (fun p => if p.1 = d then (p.1, p.2 ++ [e]) else p) := by
  induction gs with
  | nil => cases h
  | cons p rest ih =>
    obtain ⟨k, es⟩ := p
    rw [List.map_cons] at hnd
    rcases List.nodup_cons.mp hnd with ⟨hk1, hk2⟩
    by_cases hk : k = d
    · subst hk
      show (if k = k then (k, es ++ [e]) :: rest else (k, es) :: insertGroup rest k e)
        = (if k = k then (k, es ++ [e]) else (k, es)) :: rest.map _
      rw [if_pos rfl, if_pos rfl]
      have hfix : rest.map (fun p => if p.1 = k then (p.1, p.2 ++ [e]) else p) = rest := by
        apply map_eq_self_of_mem
        intro q hq
        have hq1 : ¬ q.1 = k := by
          intro hqk
          exact hk1 (List.mem_map.mpr ⟨q, hq, hqk⟩)
        rw [if_neg hq1]
      rw [hfix]
    · have hd : d ∈ rest.map Prod.fst := by
        rw [List.map_cons] at h
        rcases List.mem_cons.mp h with h1 | h1
        · exact absurd h1.symm hk
        · exact h1
      show (if k = d then (k, es ++ [e]) :: rest else (k, es) :: insertGroup rest d e)
        = (if k = d then (k, es ++ [e]) else (k, es)) :: rest.map _
      rw [if_neg hk, if_neg hk, ih hk2 hd]

/-- Invariant of the grouping fold: after having consumed the prefix pre
of the input, the association list gs has duplicate-free keys, each entry
holds exactly the prefix messages of its domain in input order, every
consumed message has its domain among the keys, and every key arose from
some consumed message. -/
def GroupsInv (pre : List EmailMessage)
    (gs : List (String × List EmailMessage)) : Prop :=
  (gs.map Prod.fst).Nodup ∧
  (∀ p ∈ gs, p.2 = pre.filter (fun e => extractDomain e.sender = p.1)) ∧
  (∀ e ∈ pre, extractDomain e.sender ∈ gs.map Prod.fst) ∧
  (∀ p ∈ gs, p.1 ∈ pre.map (fun e => extractDomain e.sender))

/-- The grouping invariant is preserved by one insertion step. -/
theorem groupsInv_step (pre : List EmailMessage)
    (gs : List (String × List EmailMessage)) (e : EmailMessage)
    (h : GroupsInv pre gs) :
    GroupsInv (pre ++ [e]) (insertGroup gs (extractDomain e.sender) e) := by
  obtain ⟨hnd, hfil, hkey, hwit⟩ := h
  by_cases hm : extractDomain e.sender ∈ gs.map Prod.fst
  · rw [insertGroup_of_mem gs _ e hnd hm]
    have hfst : (gs.map (fun p => if p.1 = extractDomain e.sender
        then (p.1, p.2 ++ [e]) else p)).map Prod.fst = gs.map Prod.fst := by
      rw [List.map_map]
      apply map_ext_mem
      intro p _
      by_cases h1 : p.1 = extractDomain e.sender
      · simp [h1]
      · simp [h1]
    refine ⟨by rw [hfst]; exact hnd, ?_, ?_, ?_⟩
    · intro q hq
      rcases List.mem_map.mp hq with ⟨p, hp, hpq⟩
      by_cases h1 : p.1 = extractDomain e.sender
      · rw [if_pos h1] at hpq
        rw [← hpq]
        rw [List.filter_append]
        show p.2 ++ [e] = _ ++ List.filter _ [e]
        rw [List.filter_cons, List.filter_nil]
        have he : decide (extractDomain e.sender = p.1) = true := by
          rw [h1]; exact decide_eq_true rfl
        rw [if_pos (by simpa using he)]
        rw [hfil p hp]
      · rw [if_neg h1] at hpq
        rw [← hpq]
        rw [List.filter_append]
        show p.2 = _ ++ List.filter _ [e]
        rw [List.filter_cons, List.filter_nil]
        have he : ¬ (extractDomain e.sender = p.1) := fun hh => h1 hh.symm
        rw [if_neg (by simpa using he), List.append_nil]
        exact hfil p hp
    · intro x hx
      rw [hfst]
      rcases List.mem_append.mp hx with h1 | h1
      · exact hkey x h1
      · rw [List.mem_singleton.mp h1]
        exact hm
    · intro q hq
      rcases List.mem_map.mp hq with ⟨p, hp, hpq⟩
      have hq1 : q.1 = p.1 := by
        rw [← hpq]
        by_cases h1 : p.1 = extractDomain e.sender
        · rw [if_pos h1]
        · rw [if_neg h1]
      rw [hq1, List.map_append]
      exact List.mem_append_left _ (hwit p hp)
  · rw [insertGroup_of_not_mem gs _ e hm]
    refine ⟨?_, ?_, ?_, ?_⟩
    · rw [List.map_append]
      rw [List.nodup_append]
      refine ⟨hnd, List.nodup_singleton _, ?_⟩
      intro x hx hx2
      rw [List.map_singleton, List.mem_singleton] at hx2
      rw [hx2] at hx
      exact hm hx
    · intro q hq
      rcases List.mem_append.mp hq with h1 | h1
      · have hq1 : ¬ extractDomain e.sender = q.1 := by
          intro hh
          exact hm (hh ▸ List.mem_map_of_mem _ h1)
        rw [List.filter_append]
        show q.2 = _ ++ List.filter _ [e]
        rw [List.filter_cons, List.filter_nil]
        rw [if_neg (by simpa using hq1), List.append_nil]
        exact hfil q h1
      · rw [List.mem_singleton.mp h1]
        show [e] = (pre ++ [e]).filter (fun x => extractDomain x.sender = extractDomain e.sender)
        rw [List.filter_append]
        have hpre : pre.filter (fun x => extractDomain x.sender = extractDomain e.sender) = [] := by
          rw [List.filter_eq_nil_iff]
          intro x hx hdx
          apply hm
          have : extractDomain x.sender = extractDomain e.sender := by simpa using hdx
          exact this ▸ hkey x hx
        rw [hpre, List.nil_append]
        show [e] = List.filter _ [e]
        rw [List.filter_cons, List.filter_nil]
        rw [if_pos (by simp)]
    · intro x hx
      rw [List.map_append]
      rcases List.mem_append.mp hx with h1 | h1
      · exact List.mem_append_left _ (hkey x h1)
      · rw [List.mem_singleton.mp h1]
        apply List.mem_append_right
        simp
    · intro q hq
      rw [List.map_append]
      rcases List.mem_append.mp hq with h1 | h1
      · exact List.mem_append_left _ (hwit q h1)
      · rw [List.mem_singleton.mp h1]
        apply List.mem_append_right
        simp

/-- The grouping invariant is preserved by folding any suffix. -/
theorem groupsInv_foldl :
    ∀ (l pre : List EmailMessage) (gs : List (String × List EmailMessage)),
      GroupsInv pre gs →
      GroupsInv (pre ++ l)
        (l.foldl (fun acc e => insertGroup acc (extractDomain e.sender) e) gs) := by
  intro l
  induction l with
  | nil =>
    intro pre gs h
    rw [List.foldl_nil, List.append_nil]
    exact h
  | cons e t ih =>
    intro pre gs h
    rw [List.foldl_cons]
    have h2 := ih (pre ++ [e]) _ (groupsInv_step pre gs e h)
    rw [List.append_assoc, List.singleton_append] at h2
    exact h2

/-- The grouping invariant holds of domainGroups. -/
theorem domainGroups_inv (emails : List EmailMessage) :
    GroupsInv emails (domainGroups emails) := by
  have h0 : GroupsInv [] [] := by
    refine ⟨List.nodup_nil, ?_, ?_, ?_⟩
    · intro p hp; cases hp
    · intro e he; cases he
    · intro p hp; cases hp
  have h := groupsInv_foldl emails [] [] h0
  rw [List.nil_append] at h
  exact h

/-- Each domain group holds exactly the input messages of its domain,
in input order. -/
theorem domainGroups_filter (emails : List EmailMessage) :
    ∀ p ∈ domainGroups emails,
      p.2 = emails.filter (fun e => extractDomain e.sender = p.1) :=
  (domainGroups_inv emails).2.1

/-- The keys of the domain groups are duplicate-free. -/
theorem domainGroups_nodup_keys (emails : List EmailMessage) :
    ((domainGroups emails).map Prod.fst).Nodup :=
  (domainGroups_inv emails).1

/-- Every input message's domain is a group key. -/
theorem domainGroups_keys_complete (emails : List EmailMessage) :
    ∀ e ∈ emails, extractDomain e.sender ∈ (domainGroups emails).map Prod.fst :=
  (domainGroups_inv emails).2.2.1

/-- Every group key is the domain of some input message. -/
theorem domainGroups_keys_witness (emails : List EmailMessage) :
    ∀ p ∈ domainGroups emails,
      p.1 ∈ emails.map (fun e => extractDomain e.sender) :=
  (domainGroups_inv emails).2.2.2

/-- The cluster-building loop equals enumerating the retained groups. -/
theorem buildClusters_eq (minSize : Nat) :
    ∀ (gs : List (String × List EmailMessage)) (cid : Nat),
      buildClusters minSize cid gs =
        (List.enumFrom cid (gs.filter (fun p => minSize ≤ p.2.length))).map
          (fun q => mkDomainCluster q.1 q.2.1 q.2.2) := by
  intro gs
  induction gs with
  | nil => intro cid; rfl
  | cons p rest ih =>
    intro cid
    obtain ⟨d, es⟩ := p
    by_cases hke : minSize ≤ es.length
    · show (if minSize ≤ es.length then
          mkDomainCluster cid d es :: buildClusters minSize (cid + 1) rest
        else buildClusters minSize cid rest) = _
      rw [if_pos hke, List.filter_cons_of_pos (by simpa using hke),
        enumFrom_cons_eq, List.map_cons, ih (cid + 1)]
    · show (if minSize ≤ es.length then
          mkDomainCluster cid d es :: buildClusters minSize (cid + 1) rest
        else buildClusters minSize cid rest) = _
      rw [if_neg hke, List.filter_cons_of_neg (by simpa using hke), ih cid]

/-- Output of cluster_emails when at least one group is retained. -/
theorem cluster_emails_of_kept (minSize : Nat) (emails : List EmailMessage)
    (n : Nat) (hlen : ¬ emails.length < minSize)
    (hne : (domainGroups emails).filter (fun p => minSize ≤ p.2.length) ≠ []) :
    cluster_emails minSize emails n =
      (List.enumFrom 0 ((domainGroups emails).filter
          (fun p => minSize ≤ p.2.length))).map
        (fun q => mkDomainCluster q.1 q.2.1 q.2.2) := by
  unfold cluster_emails rule_based_clustering
  rw [if_neg hlen, buildClusters_eq]
  have hmapne : (List.enumFrom 0 ((domainGroups emails).filter
      (fun p => minSize ≤ p.2.length))).map
        (fun q => mkDomainCluster q.1 q.2.1 q.2.2) ≠ [] := by
    intro hc
    apply hne
    have hlen0 := congrArg List.length hc
    rw [List.length_map, List.enumFrom_length] at hlen0
    exact List.length_eq_zero.mp hlen0
  rw [if_neg hmapne]

/-- Output of cluster_emails when no group is retained (and the guard
branch is not taken): the single all-message fallback cluster. -/
theorem cluster_emails_of_none_kept (minSize : Nat) (emails : List EmailMessage)
    (n : Nat) (hlen : ¬ emails.length < minSize)
    (hz : (domainGroups emails).filter (fun p => minSize ≤ p.2.length) = []) :
    cluster_emails minSize emails n = [create_single_cluster emails] := by
  unfold cluster_emails rule_based_clustering
  rw [if_neg hlen, buildClusters_eq, hz]
  rfl

/-- Some group is retained exactly when some input message's domain has
multiplicity at least minSize. -/
theorem kept_ne_nil_iff (minSize : Nat) (emails : List EmailMessage) :
    (domainGroups emails).filter (fun p => minSize ≤ p.2.length) ≠ [] ↔
      ∃ e ∈ emails, minSize ≤ domainCount emails e := by
  constructor
  · intro hne
    rcases List.exists_mem_of_ne_nil _ hne with ⟨p, hp⟩
    rcases List.mem_filter.mp hp with ⟨hpg, hplen⟩
    have hplen2 : minSize ≤ p.2.length := by simpa using hplen
    rcases List.mem_map.mp (domainGroups_keys_witness emails p hpg) with ⟨e0, he0, hke⟩
    refine ⟨e0, he0, ?_⟩
    have : domainCount emails e0 = p.2.length := by
      rw [domainCount, List.countP_eq_length_filter, domainGroups_filter emails p hpg, hke]
    rw [this]
    exact hplen2
  · intro hex
    rcases hex with ⟨e, he, hc⟩
    rcases List.mem_map.mp (domainGroups_keys_complete emails e he) with ⟨p, hpg, hke⟩
    have hplen : minSize ≤ p.2.length := by
      rw [domainGroups_filter emails p hpg, hke, ← List.countP_eq_length_filter]
      exact hc
    exact List.ne_nil_of_mem (List.mem_filter.mpr ⟨hpg, by simpa using hplen⟩)

/-- For an input message, its domain is a retained key exactly when its
domain multiplicity reaches minSize. -/
theorem mem_keptKeys_iff (minSize : Nat) (emails : List EmailMessage)
    (e : EmailMessage) (he : e ∈ emails) :
    extractDomain e.sender ∈ ((domainGroups emails).filter
        (fun p => minSize ≤ p.2.length)).map Prod.fst ↔
      minSize ≤ domainCount emails e := by
  constructor
  · intro hm
    rcases List.mem_map.mp hm with ⟨p, hp, hke⟩
    rcases List.mem_filter.mp hp with ⟨hpg, hplen⟩
    have : domainCount emails e = p.2.length := by
      rw [domainCount, List.countP_eq_length_filter, domainGroups_filter emails p hpg, hke]
    rw [this]
    simpa using hplen
  · intro hc
    rcases List.mem_map.mp (domainGroups_keys_complete emails e he) with ⟨p, hpg, hke⟩
    have hplen : minSize ≤ p.2.length := by
      rw [domainGroups_filter emails p hpg, hke, ← List.countP_eq_length_filter]
      exact hc
    exact List.mem_map.mpr ⟨p, List.mem_filter.mpr ⟨hpg, by simpa using hplen⟩, hke⟩

/-! ### Concrete sample inputs used by counterexamples and witnesses -/

/-- Sample message with the given uid and sender. -/
def exEmail (u s : String) : EmailMessage :=
  ⟨u, "", s, 0, "", false⟩

/-- Four messages: three share the domain x.com, one is alone on y.com. -/
def exEmails4 : List EmailMessage :=
  [exEmail "1" "a@x.com", exEmail "2" "b@x.com",
   exEmail "3" "c@x.com", exEmail "4" "d@y.com"]

/-- Three messages whose senders contain no at-sign. -/
def exEmailsNoAt : List EmailMessage :=
  [exEmail "1" "alice", exEmail "2" "bob", exEmail "3" "carol"]

/-! ### Claim theorems -/

/-- C3: the num_clusters argument of cluster_emails has no influence on
the output: for every input list and any two target counts the outputs
are identical. -/
theorem C3_targetCount_ignored (minSize : Nat) (emails : List EmailMessage)
    (n1 n2 : Nat) :
    cluster_emails minSize emails n1 = cluster_emails minSize emails n2 := rfl

/-- C7: for fewer than minSize input messages, cluster_emails returns
exactly one cluster holding all input messages in order, named
"All Messages (N)" for N the input length, with empty keywords. -/
theorem C7_small_input_single_cluster (minSize : Nat)
    (emails : List EmailMessage) (n : Nat) (h : emails.length < minSize) :
    (cluster_emails minSize emails n).length = 1 ∧
    ∀ c ∈ cluster_emails minSize emails n,
      c.emails = emails ∧
      c.name = "All Messages (" ++ toString emails.length ++ ")" ∧
      c.keywords = [] := by
  unfold cluster_emails
  rw [if_pos h]
  refine ⟨rfl, ?_⟩
  intro c hc
  have hc1 : c = create_single_cluster emails := List.mem_singleton.mp hc
  rw [hc1]
  exact ⟨rfl, rfl, rfl⟩

/-- C7 witness: a concrete two-message input below the default threshold. -/
theorem C7_witness :
    (cluster_emails 3 [exEmail "1" "a@x.com", exEmail "2" "b@y.com"] 5).length = 1 ∧
    ∀ c ∈ cluster_emails 3 [exEmail "1" "a@x.com", exEmail "2" "b@y.com"] 5,
      c.emails = [exEmail "1" "a@x.com", exEmail "2" "b@y.com"] ∧
      c.name = "All Messages (" ++
        toString [exEmail "1" "a@x.com", exEmail "2" "b@y.com"].length ++ ")" ∧
      c.keywords = [] :=
  C7_small_input_single_cluster 3 [exEmail "1" "a@x.com", exEmail "2" "b@y.com"] 5
    (by decide)

/-- C8: within one cluster_emails call the cluster ids are exactly
0, 1, 2, ... in output order: the id list equals the range of the output
length, hence the ids are pairwise distinct and strictly increasing from 0
in the order the groups are produced. -/
theorem C8_ids_sequential (minSize : Nat) (emails : List EmailMessage)
    (n : Nat) :
    (cluster_emails minSize emails n).map (fun c => c.cluster_id) =
      List.range (cluster_emails minSize emails n).length := by
  by_cases hlen : emails.length < minSize
  · unfold cluster_emails
    rw [if_pos hlen]
    rfl
  · by_cases hz : (domainGroups emails).filter (fun p => minSize ≤ p.2.length) = []
    · rw [cluster_emails_of_none_kept minSize emails n hlen hz]
      rfl
    · rw [cluster_emails_of_kept minSize emails n hlen hz]
      rw [List.map_map, List.length_map, List.enumFrom_length]
      have h1 : ((fun c => c.cluster_id) ∘
          (fun (q : Nat × (String × List EmailMessage)) =>
            mkDomainCluster q.1 q.2.1 q.2.2)) = Prod.fst := rfl
      rw [h1, List.enumFrom_map_fst, List.range_eq_range']

/-- C9 counterexample: at limit 0 a one-message mailbox yields one
reference, not at most zero: Python's slice bound -0 selects the whole
list, so the code returns every message instead of none. -/
theorem C9_counterexample :
    ¬ (listRecentRefs (["m1"] : List String) 0).length ≤ 0 := by decide

/-- C9 (amended): for every positive limit, listRecentRefs returns the
last limit entries of the mailbox reversed (index 0 newest), hence at
most limit references, and the whole reversed mailbox when it has at
most limit messages. At limit 0 the code instead returns all messages. -/
theorem C9_amended_listRecent {α : Type} (mailbox : List α) (limit : Nat)
    (h : 1 ≤ limit) :
    listRecentRefs mailbox limit = (mailbox.drop (mailbox.length - limit)).reverse ∧
    (listRecentRefs mailbox limit).length = min mailbox.length limit ∧
    (mailbox.length ≤ limit → listRecentRefs mailbox limit = mailbox.reverse) := by
  unfold listRecentRefs sliceLastPy
  by_cases hc : limit < mailbox.length
  · rw [if_pos hc, if_neg (by omega : ¬ limit = 0)]
    refine ⟨rfl, ?_, ?_⟩
    · rw [List.length_reverse, List.length_drop]
      rw [Nat.min_eq_right (Nat.le_of_lt hc)]
      omega
    · intro hle
      omega
  · rw [if_neg hc]
    have hz : mailbox.length - limit = 0 := by omega
    rw [hz, List.drop_zero]
    refine ⟨rfl, ?_, fun _ => rfl⟩
    rw [List.length_reverse, Nat.min_eq_left (by omega)]

/-- C9 witness: a three-message mailbox with limit 2 keeps the last two
identifiers, newest first. -/
theorem C9_witness :
    listRecentRefs (["1", "2", "3"] : List String) 2 =
      ((["1", "2", "3"] : List String).drop (["1", "2", "3"].length - 2)).reverse ∧
    (listRecentRefs (["1", "2", "3"] : List String) 2).length =
      min (["1", "2", "3"] : List String).length 2 ∧
    ((["1", "2", "3"] : List String).length ≤ 2 →
      listRecentRefs (["1", "2", "3"] : List String) 2 =
        (["1", "2", "3"] : List String).reverse) :=
  C9_amended_listRecent (["1", "2", "3"] : List String) 2 (by decide)

/-- C4: header decoding is not exception-free: when an encoded word names
a charset outside the codec registry (such as x-unknown), the
bytes-decode step raises LookupError even with errors ignore, so
_decode_header propagates an exception instead of degrading to garbled
text. The theorem evaluates the embedded decoder at the failing input. -/
theorem C4_unknown_charset_raises
    (codecs : String → Option (List Nat → String))
    (h : codecs "x-unknown" = none) :
    decode_header codecs [HeaderPart.bytes [97, 98, 99] (some "x-unknown")] =
      Except.error ("unknown encoding: " ++ "x-unknown") := by
  unfold decode_header decode_header_impl pyBytesDecode
  rw [show (some "x-unknown").getD "utf-8" = "x-unknown" from rfl, h]

/-- C4 witness: the failing input evaluated under a registry that does
not know the charset x-unknown. -/
theorem C4_witness :
    decode_header (fun _ => none)
        [HeaderPart.bytes [97, 98, 99] (some "x-unknown")] =
      Except.error ("unknown encoding: " ++ "x-unknown") :=
  C4_unknown_charset_raises (fun _ => none) rfl

/-! ### Archive endpoint lemmas -/

/-- With duplicate-free ids, the linear search of archive_cluster finds
exactly the member cluster with the requested id. -/
theorem find_eq_some_of_nodup (l : List EmailCluster) (c : EmailCluster)
    (hnd : (l.map (fun x => x.cluster_id)).Nodup) (hc : c ∈ l) :
    l.find? (fun x => x.cluster_id = c.cluster_id) = some c := by
  induction l with
  | nil => cases hc
  | cons a t ih =>
    rw [List.map_cons] at hnd
    rcases List.nodup_cons.mp hnd with ⟨ha1, ha2⟩
    by_cases ha : a.cluster_id = c.cluster_id
    · have hac : a = c := by
        rcases List.mem_cons.mp hc with h | h
        · exact h.symm
        · exfalso
          apply ha1
          rw [ha]
          exact List.mem_map_of_mem _ h
      rw [hac]
      exact List.find?_cons_of_pos _ (by simp)
    · have hct : c ∈ t := by
        rcases List.mem_cons.mp hc with h | h
        · exact absurd (by rw [h]) ha
        · exact h
      rw [List.find?_cons_of_neg _ (by simpa using ha)]
      exact ih ha2 hct

/-- With duplicate-free ids, removing by id equals erasing the cluster. -/
theorem filter_ne_eq_erase (l : List EmailCluster) (c : EmailCluster)
    (hnd : (l.map (fun x => x.cluster_id)).Nodup) (hc : c ∈ l) :
    l.filter (fun x => ¬ x.cluster_id = c.cluster_id) = l.erase c := by
  induction l with
  | nil => rfl
  | cons a t ih =>
    rw [List.map_cons] at hnd
    rcases List.nodup_cons.mp hnd with ⟨ha1, ha2⟩
    by_cases hac : a = c
    · subst hac
      rw [List.erase_cons_head]
      rw [List.filter_cons_of_neg (by simp)]
      apply List.filter_eq_self.mpr
      intro x hx
      have hne : ¬ x.cluster_id = a.cluster_id := by
        intro he
        apply ha1
        rw [← he]
        exact List.mem_map_of_mem _ hx
      simpa using hne
    · have hct : c ∈ t := by
        rcases List.mem_cons.mp hc with h | h
        · exact absurd h.symm hac
        · exact h
      rw [List.erase_cons_tail (by simpa using hac)]
      have hne : ¬ a.cluster_id = c.cluster_id := by
        intro he
        apply ha1
        rw [he]
        exact List.mem_map_of_mem _ hct
      rw [List.filter_cons_of_pos (by simpa using hne), ih ha2 hct]

/-- After erasing the unique cluster with an id, no remaining cluster
carries that id. -/
theorem erase_no_id (l : List EmailCluster) (c : EmailCluster)
    (hnd : (l.map (fun x => x.cluster_id)).Nodup) (hc : c ∈ l) :
    ∀ x ∈ l.erase c, ¬ x.cluster_id = c.cluster_id := by
  intro x hx he
  have hxl : x ∈ l := List.mem_of_mem_erase hx
  have hxc : x = c := map_nodup_inj hnd x hxl c hc he
  have hlnd : l.Nodup := List.Nodup.of_map _ hnd
  rw [hxc] at hx
  exact ((List.Nodup.mem_erase_iff hlnd).mp hx).1 rfl

/-- C6: with a connected client, archiving an id absent from the active
set answers 404 (NotFoundError), leaves the state completely unchanged,
and never calls the gateway archive operation. -/
theorem C6_archive_absent_id (gw : Bool) (st : AppState) (cid : Nat)
    (hconn : st.current_gmail_client.isSome = true)
    (habs : ∀ c ∈ st.current_clusters, ¬ c.cluster_id = cid) :
    (archiveCluster gw st cid).response = ArchiveResponse.notFound ∧
    (archiveCluster gw st cid).state = st ∧
    (archiveCluster gw st cid).gateway_calls = [] := by
  cases hcg : st.current_gmail_client with
  | none =>
    rw [hcg] at hconn
    cases hconn
  | some u =>
    have hfind : st.current_clusters.find? (fun c => c.cluster_id = cid) = none :=
      List.find?_eq_none.mpr (fun x hx => by simpa using habs x hx)
    unfold archiveCluster
    rw [hcg, hfind]
    exact ⟨rfl, rfl, rfl⟩

/-- C5: with a connected client and duplicate-free cluster ids, a
successful archive of a member cluster calls the gateway archive
operation exactly once with exactly that cluster's member uids, answers
success with that cluster's member count and name, removes exactly that
cluster from the active set (leaving the other clusters and the client
unchanged), and a subsequent archive of the same id answers 404. -/
theorem C5_archive_success (st : AppState) (c : EmailCluster)
    (hconn : st.current_gmail_client.isSome = true)
    (hmem : c ∈ st.current_clusters)
    (hnd : (st.current_clusters.map (fun x => x.cluster_id)).Nodup) :
    (archiveCluster true st c.cluster_id).gateway_calls =
      [c.emails.map (fun e => e.uid)] ∧
    (archiveCluster true st c.cluster_id).response =
      ArchiveResponse.success c.emails.length c.name ∧
    (archiveCluster true st c.cluster_id).state.current_clusters =
      st.current_clusters.erase c ∧
    (archiveCluster true st c.cluster_id).state.current_gmail_client =
      st.current_gmail_client ∧
    (archiveCluster true
        (archiveCluster true st c.cluster_id).state c.cluster_id).response =
      ArchiveResponse.notFound := by
  cases hcg : st.current_gmail_client with
  | none =>
    rw [hcg] at hconn
    cases hconn
  | some u =>
    have hfind := find_eq_some_of_nodup st.current_clusters c hnd hmem
    have hout : archiveCluster true st c.cluster_id =
        ⟨ArchiveResponse.success (c.emails.map (fun e => e.uid)).length c.name,
         { st with current_clusters :=
            st.current_clusters.filter (fun x => ¬ x.cluster_id = c.cluster_id) },
         [c.emails.map (fun e => e.uid)]⟩ := by
      unfold archiveCluster
      rw [hcg, hfind]
      rfl
    have herase := filter_ne_eq_erase st.current_clusters c hnd hmem
    refine ⟨by rw [hout], ?_, ?_, ?_, ?_⟩
    · rw [hout]
      show ArchiveResponse.success (c.emails.map (fun e => e.uid)).length c.name =
        ArchiveResponse.success c.emails.length c.name
      rw [List.length_map]
    · rw [hout]
      exact herase
    · rw [hout, hcg]
    · rw [hout]
      have hfind2 : (st.current_clusters.filter
          (fun x => ¬ x.cluster_id = c.cluster_id)).find?
            (fun x => x.cluster_id = c.cluster_id) = none := by
        apply List.find?_eq_none.mpr
        intro x hx
        rw [herase] at hx
        simpa using erase_no_id st.current_clusters c hnd hmem x hx
      unfold archiveCluster
      rw [show ({ st with current_clusters :=
          st.current_clusters.filter (fun x => ¬ x.cluster_id = c.cluster_id)
        } : AppState).current_gmail_client = st.current_gmail_client from rfl, hcg]
      rw [show ({ st with current_clusters :=
          st.current_clusters.filter (fun x => ¬ x.cluster_id = c.cluster_id)
        } : AppState).current_clusters =
          st.current_clusters.filter (fun x => ¬ x.cluster_id = c.cluster_id) from rfl]
      rw [hfind2]

/-- Two sample clusters and a connected app state for the archive claims. -/
def exClusterA : EmailCluster :=
  ⟨0, "A", "", [exEmail "1" "a@x.com", exEmail "2" "b@x.com"], []⟩

/-- Second sample cluster. -/
def exClusterB : EmailCluster :=
  ⟨1, "B", "", [exEmail "3" "c@y.com"], []⟩

/-- Sample connected state with two clusters. -/
def exState : AppState :=
  ⟨[exClusterA, exClusterB], some ()⟩

/-- C5 witness: archiving cluster 0 of the sample state. -/
theorem C5_witness :
    (archiveCluster true exState exClusterA.cluster_id).gateway_calls =
      [exClusterA.emails.map (fun e => e.uid)] ∧
    (archiveCluster true exState exClusterA.cluster_id).response =
      ArchiveResponse.success exClusterA.emails.length exClusterA.name ∧
    (archiveCluster true exState exClusterA.cluster_id).state.current_clusters =
      exState.current_clusters.erase exClusterA ∧
    (archiveCluster true exState exClusterA.cluster_id).state.current_gmail_client =
      exState.current_gmail_client ∧
    (archiveCluster true
        (archiveCluster true exState exClusterA.cluster_id).state
        exClusterA.cluster_id).response = ArchiveResponse.notFound :=
  C5_archive_success exState exClusterA (by decide) (by decide) (by decide)

/-- C6 witness: archiving the absent id 5 in the sample state. -/
theorem C6_witness :
    (archiveCluster true exState 5).response = ArchiveResponse.notFound ∧
    (archiveCluster true exState 5).state = exState ∧
    (archiveCluster true exState 5).gateway_calls = [] :=
  C6_archive_absent_id true exState 5 (by decide) (by decide)

/-- C1 counterexample: in the four-message sample (three x.com senders,
one y.com sender) with the default threshold 3, the y.com message is an
input message contained in zero output clusters, refuting that every
message belongs to exactly one cluster. -/
theorem C1_counterexample :
    exEmail "4" "d@y.com" ∈ exEmails4 ∧
    (cluster_emails 3 exEmails4 5).countP
      (fun c => exEmail "4" "d@y.com" ∈ c.emails) = 0 := by
  constructor
  · decide
  · decide

/-- C1 (amended): every message belongs to at most one cluster of the
output of cluster_emails: distinct output clusters have no member in
common (messages of a below-threshold domain group may belong to no
cluster at all). -/
theorem C1_amended_pairwise_disjoint (minSize : Nat)
    (emails : List EmailMessage) (n : Nat) :
    (cluster_emails minSize emails n).Pairwise
      (fun c1 c2 => ∀ e, e ∈ c1.emails → e ∉ c2.emails) := by
  by_cases hlen : emails.length < minSize
  · unfold cluster_emails
    rw [if_pos hlen]
    exact List.pairwise_singleton _ _
  · by_cases hz : (domainGroups emails).filter (fun p => minSize ≤ p.2.length) = []
    · rw [cluster_emails_of_none_kept minSize emails n hlen hz]
      exact List.pairwise_singleton _ _
    · rw [cluster_emails_of_kept minSize emails n hlen hz]
      have hndk : (((domainGroups emails).filter
          (fun p => minSize ≤ p.2.length)).map Prod.fst).Nodup :=
        List.Nodup.sublist (List.Sublist.map _ (List.filter_sublist _))
          (domainGroups_nodup_keys emails)
      have hpair1 : ((domainGroups emails).filter
          (fun p => minSize ≤ p.2.length)).Pairwise (fun p q => p.1 ≠ q.1) :=
        List.pairwise_map.mp hndk
      have hpair2 : ((domainGroups emails).filter
          (fun p => minSize ≤ p.2.length)).Pairwise
            (fun p q => ∀ e, e ∈ p.2 → e ∉ q.2) := by
        refine hpair1.imp_of_mem ?_
        intro p q hp hq hne e hep heq
        have hp2 := domainGroups_filter emails p (List.mem_of_mem_filter hp)
        have hq2 := domainGroups_filter emails q (List.mem_of_mem_filter hq)
        rw [hp2] at hep
        rw [hq2] at heq
        have h1 : extractDomain e.sender = p.1 := by
          simpa using (List.mem_filter.mp hep).2
        have h2 : extractDomain e.sender = q.1 := by
          simpa using (List.mem_filter.mp heq).2
        exact hne (h1.symm.trans h2)
      have hpair3 := pairwise_enumFrom 0 _ hpair2
      exact List.pairwise_map.mpr (hpair3.imp (fun h => h))

/-- Count of a message in the concatenation of the retained groups:
the full input count when its domain is a retained key, zero otherwise. -/
theorem count_in_kept_flatten (minSize : Nat) (emails : List EmailMessage)
    (a : EmailMessage) :
    ((((domainGroups emails).filter (fun p => minSize ≤ p.2.length)).map
        Prod.snd).flatten).count a =
      if extractDomain a.sender ∈ ((domainGroups emails).filter
          (fun p => minSize ≤ p.2.length)).map Prod.fst
      then emails.count a else 0 := by
  have hndk : (((domainGroups emails).filter
      (fun p => minSize ≤ p.2.length)).map Prod.fst).Nodup :=
    List.Nodup.sublist (List.Sublist.map _ (List.filter_sublist _))
      (domainGroups_nodup_keys emails)
  rw [count_flatten_eq, List.map_map]
  have hmap : ((domainGroups emails).filter (fun p => minSize ≤ p.2.length)).map
        ((fun l => l.count a) ∘ Prod.snd) =
      ((domainGroups emails).filter (fun p => minSize ≤ p.2.length)).map
        ((fun d => if extractDomain a.sender = d then emails.count a else 0) ∘
          Prod.fst) := by
    apply map_ext_mem
    intro p hp
    show p.2.count a = _
    rw [domainGroups_filter emails p (List.mem_of_mem_filter hp), count_filter_ite]
    simp only [decide_eq_true_eq]
    rfl
  rw [hmap, ← List.map_map]
  exact sum_map_ite_eq _ _ _ hndk

/-- Count of a message in the threshold-filtered input. -/
theorem count_in_threshold_filter (minSize : Nat) (emails : List EmailMessage)
    (a : EmailMessage) :
    (emails.filter (fun e => minSize ≤ domainCount emails e)).count a =
      if minSize ≤ domainCount emails a then emails.count a else 0 := by
  rw [count_filter_ite]
  simp only [decide_eq_true_eq]

/-- C2: for inputs of length at least minSize, when some domain reaches
the threshold the concatenation of all returned clusters' members is a
permutation of exactly the input messages whose domain multiplicity
reaches minSize (below-threshold groups contribute nothing); when no
domain reaches it, the output is the single all-message cluster. -/
theorem C2_union_is_threshold_subset (minSize : Nat)
    (emails : List EmailMessage) (n : Nat) (h : minSize ≤ emails.length) :
    ((∃ e ∈ emails, minSize ≤ domainCount emails e) →
      (((cluster_emails minSize emails n).map (fun c => c.emails)).flatten).Perm
        (emails.filter (fun e => minSize ≤ domainCount emails e))) ∧
    ((∀ e ∈ emails, domainCount emails e < minSize) →
      cluster_emails minSize emails n = [create_single_cluster emails]) := by
  have hlen : ¬ emails.length < minSize := by omega
  constructor
  · intro hex
    have hne := (kept_ne_nil_iff minSize emails).mpr hex
    rw [cluster_emails_of_kept minSize emails n hlen hne]
    have hmape : ((List.enumFrom 0 ((domainGroups emails).filter
        (fun p => minSize ≤ p.2.length))).map
          (fun q => mkDomainCluster q.1 q.2.1 q.2.2)).map (fun c => c.emails) =
        ((domainGroups emails).filter (fun p => minSize ≤ p.2.length)).map
          Prod.snd := by
      rw [List.map_map]
      have hco : ((fun c => c.emails) ∘
          fun (q : Nat × (String × List EmailMessage)) =>
            mkDomainCluster q.1 q.2.1 q.2.2) = (Prod.snd ∘ Prod.snd) := rfl
      rw [hco, ← List.map_map, List.enumFrom_map_snd]
    rw [hmape]
    apply List.perm_iff_count.mpr
    intro a
    rw [count_in_kept_flatten, count_in_threshold_filter]
    by_cases ha : a ∈ emails
    · rw [if_congr (mem_keptKeys_iff minSize emails a ha) rfl rfl]
    · have hz : emails.count a = 0 := List.count_eq_zero.mpr ha
      rw [hz]
      simp
  · intro hall
    have hz : (domainGroups emails).filter (fun p => minSize ≤ p.2.length) = [] := by
      by_contra hne
      rcases (kept_ne_nil_iff minSize emails).mp hne with ⟨e, he, hc⟩
      exact absurd hc (Nat.not_le.mpr (hall e he))
    exact cluster_emails_of_none_kept minSize emails n hlen hz

/-- C2 witness: the four-message sample at threshold 3. -/
theorem C2_witness :
    ((∃ e ∈ exEmails4, 3 ≤ domainCount exEmails4 e) →
      (((cluster_emails 3 exEmails4 5).map (fun c => c.emails)).flatten).Perm
        (exEmails4.filter (fun e => 3 ≤ domainCount exEmails4 e))) ∧
    ((∀ e ∈ exEmails4, domainCount exEmails4 e < 3) →
      cluster_emails 3 exEmails4 5 = [create_single_cluster exEmails4]) :=
  C2_union_is_threshold_subset 3 exEmails4 5 (by decide)

/-- A character list without an at-sign never matches the domain regex. -/
theorem extractDomainAux_of_no_at (cs : List Char) (h : '@' ∉ cs) :
    extractDomainAux cs = "" := by
  induction cs with
  | nil => rfl
  | cons c rest ih =>
    have hc : ¬ c = '@' := by
      intro he
      exact h (by rw [he]; exact List.mem_cons_self _ _)
    show (if c = '@' then
        (let r := domainRun rest
         if r = [] then extractDomainAux rest else String.mk r)
      else extractDomainAux rest) = ""
    rw [if_neg hc]
    exact ih (fun hm => h (List.mem_cons_of_mem _ hm))

/-- C10: every message whose sender has no at-sign gets the empty-string
domain; all such messages land in the single empty-domain group (the
filter of the input by empty domain), and that group appears as the
member list of an output cluster exactly when it reaches minSize,
provided the input reaches minSize and some sender has no at-sign. -/
theorem C10_empty_domain_group (minSize : Nat) (emails : List EmailMessage)
    (n : Nat) (hlen : minSize ≤ emails.length)
    (hex : ∃ e0 ∈ emails, '@' ∉ e0.sender.data) :
    (∀ e ∈ emails, '@' ∉ e.sender.data → extractDomain e.sender = "") ∧
    ((∃ c ∈ cluster_emails minSize emails n,
        c.emails = emails.filter (fun e => extractDomain e.sender = "")) ↔
      minSize ≤ (emails.filter (fun e => extractDomain e.sender = "")).length) := by
  have hlen2 : ¬ emails.length < minSize := by omega
  have hkey0 : ∀ s : String, '@' ∉ s.data → extractDomain s = "" := by
    intro s hs
    exact extractDomainAux_of_no_at s.data hs
  refine ⟨fun e _ he => hkey0 e.sender he, ?_⟩
  rcases hex with ⟨e0, he0, hat0⟩
  have hke0 : extractDomain e0.sender = "" := hkey0 e0.sender hat0
  constructor
  · intro hc
    rcases hc with ⟨c, hcmem, hce⟩
    by_cases hz : (domainGroups emails).filter (fun p => minSize ≤ p.2.length) = []
    · rw [cluster_emails_of_none_kept minSize emails n hlen2 hz] at hcmem
      have hc1 : c = create_single_cluster emails := List.mem_singleton.mp hcmem
      have hemails : emails = emails.filter (fun e => extractDomain e.sender = "") := by
        rw [← hce, hc1]
        rfl
      rw [← hemails]
      exact hlen
    · rw [cluster_emails_of_kept minSize emails n hlen2 hz] at hcmem
      rcases List.mem_map.mp hcmem with ⟨q, hq, hqc⟩
      have hq2 : q.2 ∈ (domainGroups emails).filter (fun p => minSize ≤ p.2.length) :=
        snd_mem_of_mem_enumFrom hq
      have hql : minSize ≤ q.2.2.length := by
        simpa using (List.mem_filter.mp hq2).2
      have hqe : q.2.2 = c.emails := by
        rw [← hqc]
        rfl
      rw [hce] at hqe
      rw [← hqe]
      exact hql
  · intro hG
    have hkmem : "" ∈ (domainGroups emails).map Prod.fst := by
      have hh := domainGroups_keys_complete emails e0 he0
      rwa [hke0] at hh
    rcases List.mem_map.mp hkmem with ⟨p, hp, hp1⟩
    have hpe : p.2 = emails.filter (fun e => extractDomain e.sender = "") := by
      rw [domainGroups_filter emails p hp, hp1]
    have hpk : p ∈ (domainGroups emails).filter (fun p => minSize ≤ p.2.length) := by
      apply List.mem_filter.mpr
      refine ⟨hp, ?_⟩
      have hpl : minSize ≤ p.2.length := by
        rw [hpe]
        exact hG
      simpa using hpl
    have hz : (domainGroups emails).filter (fun p => minSize ≤ p.2.length) ≠ [] :=
      List.ne_nil_of_mem hpk
    rw [cluster_emails_of_kept minSize emails n hlen2 hz]
    rcases exists_mem_enumFrom _ p hpk 0 with ⟨i, hi⟩
    refine ⟨mkDomainCluster i p.1 p.2, List.mem_map.mpr ⟨(i, p), hi, rfl⟩, ?_⟩
    show p.2 = _
    exact hpe

/-- C10 witness: three messages whose senders have no at-sign, at
threshold 3: the empty-domain group is the whole input and is returned
as a cluster. -/
theorem C10_witness :
    (∀ e ∈ exEmailsNoAt, '@' ∉ e.sender.data → extractDomain e.sender = "") ∧
    ((∃ c ∈ cluster_emails 3 exEmailsNoAt 5,
        c.emails = exEmailsNoAt.filter (fun e => extractDomain e.sender = "")) ↔
      3 ≤ (exEmailsNoAt.filter (fun e => extractDomain e.sender = "")).length) :=
  C10_empty_domain_group 3 exEmailsNoAt 5 (by decide) (by decide)
